import Mathlib

/-!
Formal model of the mrva-go-hepc storage core: the CodeQL database discovery
engine (package `internal/codeql`), the local filesystem backend
(`internal/storage/local`) and the GCS backend (package `gcs`), embedded
shallowly in Lean.

Conventions of the embedding:
* Go strings are modelled as lists of characters (`Str`); Go byte slices as
  lists of naturals below 256.
* Filesystem and object-store I/O is modelled by explicit oracles (functions
  from paths to entries or results) passed to the functions that perform the
  I/O in the source; Go's time.Now is an explicit `now : Nat` argument.
* Path manipulation (`filepath.Clean`, `Join`, `Base`, `Ext`, `Rel`) follows
  Go's Unix implementations lexically.
* `crypto/sha256` is implemented in full; `strings.ToLower` is modelled on
  its ASCII fragment (the only fragment the source's comparisons rely on).
-/

set_option maxRecDepth 8000

/-- Go strings, modelled as their character lists. -/
abbrev Str : Type := List Char

/-- A Lean string literal as a Go string. -/
def str (s : String) : Str := s.data

/-- ASCII lower-casing of one character; agrees with Go `strings.ToLower`
on ASCII input. -/
def charToLower (c : Char) : Char :=
  if 'A' ≤ c ∧ c ≤ 'Z' then Char.ofNat (c.toNat + 32) else c

/-- Go `strings.ToLower` (ASCII fragment). -/
def goToLower (s : Str) : Str := s.map charToLower

/-- Go `strings.HasPrefix s pre`. -/
def goHasPrefix (s pre : Str) : Bool := decide (pre <+: s)

/-- Go `strings.HasSuffix s suf`. -/
def goHasSuffix (s suf : Str) : Bool := decide (suf <:+ s)

/-- Go `strings.TrimSuffix`. -/
def goTrimSuffix (s suf : Str) : Str :=
  if goHasSuffix s suf then s.take (s.length - suf.length) else s

/-- Go `strings.TrimPrefix`. -/
def goTrimPrefix (s pre : Str) : Str :=
  if goHasPrefix s pre then s.drop pre.length else s

/-- Go `strings.Split` with a one-character separator. `goSplit sep [] = [[]]`,
matching Go's `Split("", sep) = [""]`. -/
def goSplit (sep : Char) : Str → List Str
  | [] => [[]]
  | c :: rest =>
    let r := goSplit sep rest
    if c = sep then [] :: r
    else
      match r with
      | [] => [[c]]
      | h :: t => (c :: h) :: t

/-- One step of the segment stack used by `goClean`: Go `path.Clean`'s
handling of ".", ".." and empty segments. The stack is kept reversed. -/
def cleanStep (rooted : Bool) (st : List Str) (seg : Str) : List Str :=
  if seg = [] ∨ seg = ['.'] then st
  else if seg = ['.', '.'] then
    match st with
    | [] => if rooted then [] else [seg]
    | top :: rest => if top = ['.', '.'] then seg :: st else rest
  else seg :: st

/-- Go `filepath.Clean` for Unix paths: lexical simplification removing ".",
empty segments, and resolving ".." against preceding segments (never above
the root of a rooted path). -/
def goClean (p : Str) : Str :=
  if p = [] then ['.']
  else
    let rooted := p.head? = some '/'
    let parts := ((goSplit '/' p).foldl (cleanStep rooted) []).reverse
    if rooted then '/' :: List.intercalate ['/'] parts
    else if parts = [] then ['.']
    else List.intercalate ['/'] parts

/-- Go `filepath.Join` for two elements: empty elements are skipped and the
result is cleaned; `Join("", "") = ""`. -/
def goJoin (a b : Str) : Str :=
  if a = [] ∧ b = [] then []
  else if a = [] then goClean b
  else if b = [] then goClean a
  else goClean (a ++ '/' :: b)

/-- Go `filepath.IsAbs` (Unix). -/
def goIsAbs (p : Str) : Bool := p.head? = some '/'

/-- Go `filepath.Base` (Unix). -/
def goBase (p : Str) : Str :=
  if p = [] then ['.']
  else
    let trimmed := (p.reverse.dropWhile (fun c => c = '/')).reverse
    if trimmed = [] then ['/']
    else (trimmed.reverse.takeWhile (fun c => c ≠ '/')).reverse

/-- Go `filepath.Ext`: the suffix of the last element starting at its final
dot, or empty when the last element has no dot. -/
def goExt (p : Str) : Str :=
  let revSeg := p.reverse.takeWhile (fun c => c ≠ '/')
  if '.' ∈ revSeg then '.' :: (revSeg.takeWhile (fun c => c ≠ '.')).reverse else []

/-- Segments of a cleaned, de-rooted path for `goRel` ("" has none). -/
def relSegs (p : Str) : List Str := if p = [] then [] else goSplit '/' p

/-- Length of the longest common segment run at the front of two lists. -/
def commonCount : List Str → List Str → Nat
  | a :: as, b :: bs => if a = b then commonCount as bs + 1 else 0
  | _, _ => 0

/-- Go `filepath.Rel` (Unix): the target made relative to the base, or the
"can't make relative" error (differing rootedness, or the base keeping a
".." after the common part). -/
def goRel (basepath targpath : Str) : Except Unit Str :=
  let base := goClean basepath
  let targ := goClean targpath
  if targ = base then .ok ['.']
  else
    let base := if base = ['.'] then [] else base
    let baseSlashed := base.head? = some '/'
    let targSlashed := targ.head? = some '/'
    if baseSlashed ≠ targSlashed then .error ()
    else
      let bsegs := relSegs (if baseSlashed then base.drop 1 else base)
      let tsegs := relSegs (if targSlashed then targ.drop 1 else targ)
      let n := commonCount bsegs tsegs
      let brest := bsegs.drop n
      let trest := tsegs.drop n
      if brest.head? = some ['.', '.'] then .error ()
      else .ok (List.intercalate ['/'] (brest.map (fun _ => ['.', '.']) ++ trest))

/-! ### SHA-256 (`crypto/sha256`), over byte lists -/

/-- Truncation to 32 bits. -/
def w32 (n : Nat) : Nat := n % 4294967296

/-- 32-bit rotate right (argument below 2^32). -/
def rotr (n x : Nat) : Nat := w32 ((x >>> n) ||| (x <<< (32 - n)))

def ch32 (e f g : Nat) : Nat := (e &&& f) ^^^ ((4294967295 ^^^ e) &&& g)

def maj32 (a b c : Nat) : Nat := (a &&& b) ^^^ (a &&& c) ^^^ (b &&& c)

def bigS0 (x : Nat) : Nat := rotr 2 x ^^^ rotr 13 x ^^^ rotr 22 x

def bigS1 (x : Nat) : Nat := rotr 6 x ^^^ rotr 11 x ^^^ rotr 25 x

def smallS0 (x : Nat) : Nat := rotr 7 x ^^^ rotr 18 x ^^^ (x >>> 3)

def smallS1 (x : Nat) : Nat := rotr 17 x ^^^ rotr 19 x ^^^ (x >>> 10)

/-- The 64 SHA-256 round constants. -/
def sha256K : List Nat :=
  [1116352408, 1899447441, 3049323471, 3921009573, 961987163,
   1508970993, 2453635748, 2870763221, 3624381080, 310598401,
   607225278, 1426881987, 1925078388, 2162078206, 2614888103,
   3248222580, 3835390401, 4022224774, 264347078, 604807628,
   770255983, 1249150122, 1555081692, 1996064986, 2554220882,
   2821834349, 2952996808, 3210313671, 3336571891, 3584528711,
   113926993, 338241895, 666307205, 773529912, 1294757372,
   1396182291, 1695183700, 1986661051, 2177026350, 2456956037,
   2730485921, 2820302411, 3259730800, 3345764771, 3516065817,
   3600352804, 4094571909, 275423344, 430227734, 506948616,
   659060556, 883997877, 958139571, 1322822218, 1537002063,
   1747873779, 1955562222, 2024104815, 2227730452, 2361852424,
   2428436474, 2756734187, 3204031479, 3329325298]

/-- The eight 32-bit words of a SHA-256 state. -/
structure Hash8 where
  a : Nat
  b : Nat
  c : Nat
  d : Nat
  e : Nat
  f : Nat
  g : Nat
  h : Nat
deriving DecidableEq

/-- The SHA-256 initial state. -/
def initH : Hash8 :=
  ⟨1779033703, 3144134277, 1013904242, 2773480762,
   1359893119, 2600822924, 528734635, 1541459225⟩

/-- Big-endian bytes to 32-bit words, four at a time. -/
def toWordsBE : List Nat → List Nat
  | b0 :: b1 :: b2 :: b3 :: rest =>
    (b0 * 16777216 + b1 * 65536 + b2 * 256 + b3) :: toWordsBE rest
  | _ => []

/-- Message-schedule extension: append `fuel` further words to the 16 chunk
words. -/
def extendWords : Nat → List Nat → List Nat
  | 0, ws => ws
  | n + 1, ws =>
    let len := ws.length
    let next := w32 (ws.getD (len - 16) 0 + smallS0 (ws.getD (len - 15) 0) +
                     ws.getD (len - 7) 0 + smallS1 (ws.getD (len - 2) 0))
    extendWords n (ws ++ [next])

/-- One SHA-256 compression round; `kw` pairs the round constant with the
scheduled word. -/
def roundStep (s : Hash8) (kw : Nat × Nat) : Hash8 :=
  let t1 := w32 (s.h + bigS1 s.e + ch32 s.e s.f s.g + kw.1 + kw.2)
  let t2 := w32 (bigS0 s.a + maj32 s.a s.b s.c)
  ⟨w32 (t1 + t2), s.a, s.b, s.c, w32 (s.d + t1), s.e, s.f, s.g⟩

/-- Compression of one 64-byte chunk into the running state. -/
def sha256Chunk (hv : Hash8) (chunk : List Nat) : Hash8 :=
  let ws := extendWords 48 (toWordsBE chunk)
  let s := (sha256K.zip ws).foldl roundStep hv
  ⟨w32 (hv.a + s.a), w32 (hv.b + s.b), w32 (hv.c + s.c), w32 (hv.d + s.d),
   w32 (hv.e + s.e), w32 (hv.f + s.f), w32 (hv.g + s.g), w32 (hv.h + s.h)⟩

/-- Fold the chunks of a padded message into the state (fuel-driven so the
definition is structural and computes by reduction). -/
def processChunks : Nat → Hash8 → List Nat → Hash8
  | 0, hv, _ => hv
  | _ + 1, hv, [] => hv
  | fuel + 1, hv, b :: bs =>
    processChunks fuel (sha256Chunk hv ((b :: bs).take 64)) ((b :: bs).drop 64)

/-- A natural as eight big-endian bytes (the padded bit-length field). -/
def lenBytesBE (v : Nat) : List Nat :=
  [(v >>> 56) % 256, (v >>> 48) % 256, (v >>> 40) % 256, (v >>> 32) % 256,
   (v >>> 24) % 256, (v >>> 16) % 256, (v >>> 8) % 256, v % 256]

/-- A 32-bit word as four big-endian bytes. -/
def wordBytesBE (v : Nat) : List Nat :=
  [(v >>> 24) % 256, (v >>> 16) % 256, (v >>> 8) % 256, v % 256]

/-- The 32 digest bytes of a final state. -/
def digestBytes (hv : Hash8) : List Nat :=
  wordBytesBE hv.a ++ wordBytesBE hv.b ++ wordBytesBE hv.c ++ wordBytesBE hv.d ++
  wordBytesBE hv.e ++ wordBytesBE hv.f ++ wordBytesBE hv.g ++ wordBytesBE hv.h

/-- SHA-256 padding: 0x80, zeros to 56 mod 64, then the bit length. -/
def padMessage (msg : List Nat) : List Nat :=
  let l := msg.length
  let zeros := (120 - ((l + 1) % 64)) % 64
  msg ++ 128 :: (List.replicate zeros 0 ++ lenBytesBE (8 * l))

/-- SHA-256 of a byte list: the 32 digest bytes. -/
def sha256 (msg : List Nat) : List Nat :=
  let padded := padMessage msg
  digestBytes (processChunks padded.length initH padded)

/-- One byte as two lowercase hex characters (`encoding/hex`). -/
def hexDigit (n : Nat) : Char := if n < 10 then Char.ofNat (48 + n) else Char.ofNat (87 + n)

/-- `hex.EncodeToString` over a byte list. -/
def hexEncode : List Nat → Str
  | [] => []
  | b :: bs => hexDigit (b / 16) :: hexDigit (b % 16) :: hexEncode bs

/-- UTF-8 encoding of one character (Go `[]byte(string)`). -/
def utf8Char (c : Char) : List Nat :=
  let n := c.toNat
  if n < 128 then [n]
  else if n < 2048 then [192 + n / 64, 128 + n % 64]
  else if n < 65536 then [224 + n / 4096, 128 + (n / 64) % 64, 128 + n % 64]
  else [240 + n / 262144, 128 + (n / 4096) % 64, 128 + (n / 64) % 64, 128 + n % 64]

/-- UTF-8 bytes of a Go string. -/
def utf8Encode (s : Str) : List Nat := (s.map utf8Char).flatten

/-! ### Data model (`api/types.go`, `internal/codeql/codeql.go`) -/

/-- `codeql.DatabaseCreationMetadata` (the `creationMetadata` block). -/
structure DatabaseCreationMetadata where
  sha : Str
  cliVersion : Str
  creationTime : Str
deriving DecidableEq

/-- `codeql.DiscoveredDatabase`. -/
structure DiscoveredDatabase where
  path : Str
  name : Str
  isArchived : Bool
  language : Str
  sourceLocationPrefix : Str
  creationMetadata : Option DatabaseCreationMetadata
  fileSize : Int
  contentHash : Str
  owner : Str
  repo : Str
deriving DecidableEq

/-- `api.DatabaseMetadata`, the catalog projection. -/
structure DatabaseMetadata where
  contentHash : Str
  buildCID : Str
  gitBranch : Str
  gitCommitID : Str
  gitOwner : Str
  gitRepo : Str
  ingestionDatetimeUTC : Str
  primaryLanguage : Str
  resultURL : Str
  toolName : Str
  toolVersion : Str
  projname : Str
  dbFileSize : Int
deriving DecidableEq

instance {ε α : Type} [DecidableEq ε] [DecidableEq α] : DecidableEq (Except ε α) := fun x y =>
  match x, y with
  | .ok a, .ok b => if h : a = b then .isTrue (by rw [h]) else .isFalse (by simp [h])
  | .error a, .error b => if h : a = b then .isTrue (by rw [h]) else .isFalse (by simp [h])
  | .ok _, .error _ => .isFalse (by simp)
  | .error _, .ok _ => .isFalse (by simp)

/-! ### Metadata extraction (`internal/codeql/codeql.go`) -/

/-- The `"unknown"` sentinel. -/
def unknownStr : Str := str "unknown"

/-- `codeql.extractOwnerRepo` (the gcs backend carries an identical copy):
clean the sourceLocationPrefix, split on the separator, drop empty parts,
and read owner and repo off the last two parts. -/
def extractOwnerRepo (slp : Str) : Str × Str :=
  if slp = [] then (unknownStr, unknownStr)
  else
    match ((goSplit '/' (goClean slp)).filter (fun p => p ≠ [])).reverse with
    | r :: o :: _ => (o, r)
    | [r] => (unknownStr, r)
    | [] => (unknownStr, unknownStr)

/-- The extension trimming of `codeql.extractOwnerRepoFromFilename`:
".zip", then ".tar.gz", then ".tgz". -/
def trimArchiveExts (filename : Str) : Str :=
  goTrimSuffix (goTrimSuffix (goTrimSuffix filename (str ".zip")) (str ".tar.gz")) (str ".tgz")

/-- `codeql.extractOwnerRepoFromFilename`: first two "_"-separated tokens of
the trimmed name, else first two "-"-separated tokens, else unknown. -/
def extractOwnerRepoFromFilename (filename : Str) : Str × Str :=
  match goSplit '_' (trimArchiveExts filename) with
  | p0 :: p1 :: _ => (p0, p1)
  | _ =>
    match goSplit '-' (trimArchiveExts filename) with
    | p0 :: p1 :: _ => (p0, p1)
    | _ => (unknownStr, unknownStr)

/-- `owner` values treated as generic by `codeql.extractMetadataFromDBInfo`. -/
def sentinelOwner (o : Str) : Prop := o = str "opt" ∨ o = str "src" ∨ o = str "unknown"

instance (o : Str) : Decidable (sentinelOwner o) := by
  unfold sentinelOwner; infer_instance

/-- The owner/repo resolution of `codeql.extractMetadataFromDBInfo` (legacy
".dbinfo" descriptor): infer from the sourceLocationPrefix, and when the
owner lands on a generic sentinel re-derive from the archive's base name,
keeping each previous value where the filename derivation says "unknown". -/
def dbInfoOwnerRepo (slp zipPath : Str) : Str × Str :=
  if sentinelOwner (extractOwnerRepo slp).1 then
    (if (extractOwnerRepoFromFilename (goBase zipPath)).1 ≠ unknownStr
       then (extractOwnerRepoFromFilename (goBase zipPath)).1 else (extractOwnerRepo slp).1,
     if (extractOwnerRepoFromFilename (goBase zipPath)).2 ≠ unknownStr
       then (extractOwnerRepoFromFilename (goBase zipPath)).2 else (extractOwnerRepo slp).2)
  else ((extractOwnerRepo slp).1, (extractOwnerRepo slp).2)

/-- `codeql.hashFile`: SHA-256 of the file's bytes, hex encoded. The source
reads the bytes from disk; the embedding takes them as input. -/
def hashFile (content : List Nat) : Str := hexEncode (sha256 content)

/-! ### Catalog projection (`internal/storage/local/local.go`) -/

/-- The space-joined input string hashed by `generateBuildCID`. -/
def buildCIDInput (cliVersion creationTime language sourceSHA : Str) : Str :=
  cliVersion ++ ' ' :: (creationTime ++ ' ' :: (language ++ ' ' :: sourceSHA))

/-- Hex SHA-256 of a string, truncated to its first 10 characters. -/
def cidOfInput (s : Str) : Str := (hexEncode (sha256 (utf8Encode s))).take 10

/-- `generateBuildCID` (local backend; the gcs backend carries an identical
copy). -/
def generateBuildCID (cliVersion creationTime language sourceSHA : Str) : Str :=
  cidOfInput (buildCIDInput cliVersion creationTime language sourceSHA)

/-- `Backend.convertToMetadata` of the local backend (`basePath` and
`endpointURL` are the backend fields it reads). Note: the source computes
`contentHash[:10]` in the no-creation-metadata branch, which panics when a
non-empty discovered hash is shorter than 10; the embedding's `take`
truncates instead (no claim touches that corner). -/
def convertToMetadata (basePath endpointURL : Str) (db : DiscoveredDatabase) : DatabaseMetadata :=
  let contentHash :=
    if db.contentHash = [] then hexEncode (sha256 (utf8Encode db.path)) else db.contentHash
  let buildCID :=
    match db.creationMetadata with
    | some cm => generateBuildCID cm.cliVersion cm.creationTime db.language cm.sha
    | none => contentHash.take 10
  let creationTime :=
    match db.creationMetadata with
    | some cm => cm.creationTime
    | none => []
  let cliVersion :=
    match db.creationMetadata with
    | some cm => cm.cliVersion
    | none => []
  let sourceSHA :=
    match db.creationMetadata with
    | some cm => cm.sha
    | none => []
  let relPath :=
    match goRel basePath db.path with
    | .ok r => r
    | .error _ => goBase db.path
  let resultURL := goTrimSuffix endpointURL (str "/") ++ (str "/db/" ++ relPath)
  let toolName :=
    if db.language ≠ [] ∧ db.language ≠ unknownStr then str "codeql-" ++ db.language
    else str "codeql"
  { contentHash := contentHash, buildCID := buildCID, gitBranch := str "HEAD",
    gitCommitID := sourceSHA, gitOwner := db.owner, gitRepo := db.repo,
    ingestionDatetimeUTC := creationTime, primaryLanguage := db.language,
    resultURL := resultURL, toolName := toolName, toolVersion := cliVersion,
    projname := db.owner ++ '/' :: db.repo, dbFileSize := db.fileSize }

/-! ### Local discovery walk (`codeql.DiscoverDatabases`) -/

/-- One entry `filepath.WalkDir` delivers: the path, the entry's base name,
and whether it is a directory. -/
structure WalkEntry where
  path : Str
  name : Str
  isDir : Bool
deriving DecidableEq

/-- One callback invocation of the walk: an entry, or a delivered
enumeration error (the `err != nil` argument, which the source returns,
aborting the walk). -/
inductive WalkEvent where
  | entry (e : WalkEntry)
  | failure (msg : Str)
deriving DecidableEq

/-- The filesystem oracle `DiscoverDatabases` consults per candidate:
`archived p` is `discoverArchivedDatabase(p)` (error, or `nil` for a zip
that is no database, or the extracted database); `hasYml p` is whether
`os.Stat(p + "/codeql-database.yml")` succeeds; `unarchived p` is
`discoverUnarchivedDatabase(p)` (which never returns a nil database). -/
structure CodeqlFs where
  archived : Str → Except Str (Option DiscoveredDatabase)
  hasYml : Str → Bool
  unarchived : Str → Except Str DiscoveredDatabase

/-- Whether a path lies under one of the directories pruned by
`filepath.SkipDir`. -/
def underSkipped (skips : List Str) (p : Str) : Bool :=
  skips.any (fun d => goHasPrefix p (d ++ ['/']))

/-- The walk callback of `codeql.DiscoverDatabases`, folded over the
delivered events. `acc` accumulates discovered databases, `skips` the
directories pruned with `filepath.SkipDir` (whose subtrees the walk no
longer delivers). A failure event aborts with that error; a zip-named file
entry goes through archived extraction (errors skipped); a directory
holding the descriptor goes through unarchived extraction (errors skipped,
successes pruned). -/
def discoverLoop (basePath : Str) (fs : CodeqlFs) :
    List WalkEvent → List DiscoveredDatabase → List Str →
      List DiscoveredDatabase × Option Str
  | [], acc, _ => (acc, none)
  | .failure m :: _, acc, _ => (acc, some m)
  | .entry e :: rest, acc, skips =>
    if underSkipped skips e.path then discoverLoop basePath fs rest acc skips
    else if e.path = basePath then discoverLoop basePath fs rest acc skips
    else if !e.isDir && goHasSuffix (goToLower e.name) (str ".zip") then
      match fs.archived e.path with
      | .error _ => discoverLoop basePath fs rest acc skips
      | .ok none => discoverLoop basePath fs rest acc skips
      | .ok (some db) => discoverLoop basePath fs rest (acc ++ [db]) skips
    else if e.isDir && fs.hasYml e.path then
      match fs.unarchived e.path with
      | .error _ => discoverLoop basePath fs rest acc skips
      | .ok db => discoverLoop basePath fs rest (acc ++ [db]) (e.path :: skips)
    else discoverLoop basePath fs rest acc skips

/-- `codeql.DiscoverDatabases`: the databases gathered plus the walk error,
as the Go function returns both. -/
def DiscoverDatabases (basePath : Str) (fs : CodeqlFs) (walk : List WalkEvent) :
    List DiscoveredDatabase × Option Str :=
  discoverLoop basePath fs walk [] []

/-! ### Metadata cache (`Backend.ListMetadata`, `Backend.InvalidateCache`) -/

/-- The cache fields of the local `Backend`: `cachedMetadata` (`none` models
Go's nil slice — note an empty discovery result is stored as nil),
`cacheTime` and `cacheTTL` as abstract instants/durations. -/
structure CacheState where
  cachedMetadata : Option (List DatabaseMetadata)
  cacheTime : Nat
  cacheTTL : Nat
deriving DecidableEq

/-- The cache-miss path of `ListMetadata`: discover (the `Except` input is
what `codeql.DiscoverDatabases` returned), convert every database, store
the catalog and refresh the timestamp. An empty catalog is a nil slice in
Go and is stored as `none`. -/
def listMetadataMiss (basePath endpointURL : Str) (st : CacheState) (now : Nat)
    (discovered : Except Str (List DiscoveredDatabase)) :
    Except Str (List DatabaseMetadata) × CacheState :=
  match discovered with
  | .error e => (.error e, st)
  | .ok dbs =>
    let metadata := dbs.map (convertToMetadata basePath endpointURL)
    (.ok metadata,
     { st with cachedMetadata := if metadata = [] then none else some metadata,
               cacheTime := now })

/-- `Backend.ListMetadata`: return the cached catalog when the cache is
non-nil and younger than the TTL, otherwise re-discover and re-cache. -/
def ListMetadata (basePath endpointURL : Str) (st : CacheState) (now : Nat)
    (discovered : Except Str (List DiscoveredDatabase)) :
    Except Str (List DatabaseMetadata) × CacheState :=
  match st.cachedMetadata with
  | some cached =>
    if now - st.cacheTime < st.cacheTTL then (.ok cached, st)
    else listMetadataMiss basePath endpointURL st now discovered
  | none => listMetadataMiss basePath endpointURL st now discovered

/-- `Backend.InvalidateCache`: reset the cached catalog and timestamp. -/
def invalidateCache (st : CacheState) : CacheState :=
  { st with cachedMetadata := none, cacheTime := 0 }

/-! ### File serving (`Backend.GetFile`, `Backend.FileExists`) -/

/-- What `os.Stat` reports for a path: a regular file (with size and the
bytes `os.Open` would serve), a directory, absence, or another stat
failure. -/
inductive FsEntry where
  | file (size : Int) (content : List Nat)
  | dir
  | missing
  | statFailure (msg : Str)
deriving DecidableEq

/-- The filesystem oracle of the local backend's file operations, plus the
environment's `mime.TypeByExtension` table. -/
structure LocalFileSystem where
  entry : Str → FsEntry
  mimeByExt : Str → Str

/-- The failures `GetFile`/`FileExists` produce: `accessDenied` is the
"access denied: path outside base directory" error, `notFound` is
`storage.ErrNotFound`, `accessFailure` wraps other stat errors,
`isDirectory` is "cannot serve directory". -/
inductive GetFileError where
  | accessDenied
  | notFound (path : Str)
  | accessFailure (msg : Str)
  | isDirectory (path : Str)
deriving DecidableEq

/-- The path resolution shared by `GetFile` and `FileExists`: absolute
requests stand, relative ones are joined onto the base path, and the
result is cleaned. -/
def resolvedPath (basePath filename : Str) : Str :=
  goClean (if goIsAbs filename then filename else goJoin basePath filename)

/-- `Backend.GetFile`: resolve, guard with
`strings.HasPrefix(fullPath, filepath.Clean(basePath))`, stat, refuse
directories, and serve the bytes with a content type from the extension
(files the stat succeeds on are modelled as openable). -/
def GetFile (basePath : Str) (fs : LocalFileSystem) (filename : Str) :
    Except GetFileError (List Nat × Int × Str) :=
  let fullPath := resolvedPath basePath filename
  if !goHasPrefix fullPath (goClean basePath) then .error .accessDenied
  else
    match fs.entry fullPath with
    | .missing => .error (.notFound fullPath)
    | .statFailure m => .error (.accessFailure m)
    | .dir => .error (.isDirectory fullPath)
    | .file size content =>
      let ct := fs.mimeByExt (goExt fullPath)
      .ok (content, size, if ct = [] then str "application/octet-stream" else ct)

/-- `Backend.FileExists`: same resolution and guard; a directory or an
absent path reports `false` without error. -/
def FileExists (basePath : Str) (fs : LocalFileSystem) (filename : Str) :
    Except GetFileError Bool :=
  let fullPath := resolvedPath basePath filename
  if !goHasPrefix fullPath (goClean basePath) then .error .accessDenied
  else
    match fs.entry fullPath with
    | .missing => .ok false
    | .statFailure m => .error (.accessFailure m)
    | .dir => .ok false
    | .file _ _ => .ok true

/-- Modelled from the spec's words (the fetch path-safety invariant): a
resolved path "remains within the configured root" iff it is the cleaned
root itself or lies below it as a directory. -/
def specWithinRoot (root p : Str) : Prop :=
  p = goClean root ∨ (goClean root ++ ['/']) <+: p

instance (root p : Str) : Decidable (specWithinRoot root p) := by
  unfold specWithinRoot; infer_instance

/-! ### Remote discovery (`gcs` backend) -/

/-- The parsed `codeql-database.yml` fields the gcs backend reads. -/
structure GcsYaml where
  sourceLocationPrefix : Str
  primaryLanguage : Str
  creationMetadata : Option DatabaseCreationMetadata
deriving DecidableEq

/-- The object-store oracle of the gcs backend's discovery: the object names
the listing iterator delivers under the configured prefix (or an iteration
error), the read-and-parsed descriptor per candidate directory, and
`detectLanguageFromGCS`'s probe result. -/
structure GcsNamespace where
  objects : List (Except Str Str)
  fetchYaml : Str → Except Str GcsYaml
  detectLang : Str → Str

/-- `Backend.discoverUnarchivedDatabase` of the gcs backend: assemble the
catalog entry for one candidate directory. Directory size is deliberately
not computed (`totalSize = 0`); the content hash is the hex SHA-256 of the
candidate's path. -/
def gcsDiscoverUnarchived (pfx endpointURL : Str) (ns : GcsNamespace) (dbPath : Str) :
    Except Str DatabaseMetadata :=
  match ns.fetchYaml dbPath with
  | .error e => .error e
  | .ok y =>
    let language := if y.primaryLanguage = [] then ns.detectLang dbPath else y.primaryLanguage
    let totalSize : Int := 0
    let contentHash := hexEncode (sha256 (utf8Encode dbPath))
    let owner := (extractOwnerRepo y.sourceLocationPrefix).1
    let repo := (extractOwnerRepo y.sourceLocationPrefix).2
    let relPath := goTrimPrefix dbPath pfx
    let resultURL := goTrimSuffix endpointURL (str "/") ++ (str "/db/" ++ relPath)
    let buildCID :=
      match y.creationMetadata with
      | some cm => generateBuildCID cm.cliVersion cm.creationTime language cm.sha
      | none => contentHash.take 10
    let creationTime :=
      match y.creationMetadata with
      | some cm => cm.creationTime
      | none => []
    let cliVersion :=
      match y.creationMetadata with
      | some cm => cm.cliVersion
      | none => []
    let sourceSHA :=
      match y.creationMetadata with
      | some cm => cm.sha
      | none => []
    let toolName :=
      if language ≠ [] ∧ language ≠ unknownStr then str "codeql-" ++ language
      else str "codeql"
    .ok { contentHash := contentHash, buildCID := buildCID, gitBranch := str "HEAD",
          gitCommitID := sourceSHA, gitOwner := owner, gitRepo := repo,
          ingestionDatetimeUTC := creationTime, primaryLanguage := language,
          resultURL := resultURL, toolName := toolName, toolVersion := cliVersion,
          projname := owner ++ '/' :: repo, dbFileSize := totalSize }

/-- The iteration of `Backend.discoverDatabases` (gcs): an iterator error is
fatal; keys ending in "/codeql-database.yml" mark candidates, deduplicated
by their directory path; per-candidate failures are skipped. -/
def gcsDiscoverLoop (pfx endpointURL : Str) (ns : GcsNamespace) :
    List (Except Str Str) → List DatabaseMetadata → List Str →
      Except Str (List DatabaseMetadata)
  | [], acc, _ => .ok acc
  | .error e :: _, _, _ => .error e
  | .ok objectName :: rest, acc, discovered =>
    if goHasSuffix objectName (str "/codeql-database.yml") then
      let dbPath := goTrimSuffix objectName (str "/codeql-database.yml")
      if dbPath ∈ discovered then gcsDiscoverLoop pfx endpointURL ns rest acc discovered
      else
        match gcsDiscoverUnarchived pfx endpointURL ns dbPath with
        | .error _ => gcsDiscoverLoop pfx endpointURL ns rest acc (dbPath :: discovered)
        | .ok m => gcsDiscoverLoop pfx endpointURL ns rest (acc ++ [m]) (dbPath :: discovered)
    else gcsDiscoverLoop pfx endpointURL ns rest acc discovered

/-- `Backend.discoverDatabases` of the gcs backend. -/
def gcsDiscoverDatabases (pfx endpointURL : Str) (ns : GcsNamespace) :
    Except Str (List DatabaseMetadata) :=
  gcsDiscoverLoop pfx endpointURL ns ns.objects [] []

/-! ### Helper lemmas -/

theorem hexEncode_length (bs : List Nat) : (hexEncode bs).length = 2 * bs.length := by
  induction bs with
  | nil => rfl
  | cons b t ih => simp [hexEncode, ih]; omega

theorem sha256_length (msg : List Nat) : (sha256 msg).length = 32 := by
  unfold sha256 digestBytes wordBytesBE
  simp

theorem sha256Hex_ne_nil (m : List Nat) : hexEncode (sha256 m) ≠ [] := by
  intro h
  have hl := hexEncode_length (sha256 m)
  rw [h, sha256_length] at hl
  simp at hl

theorem goSplit_of_not_mem {sep : Char} {s : Str} (h : sep ∉ s) : goSplit sep s = [s] := by
  induction s with
  | nil => rfl
  | cons c t ih =>
    simp only [List.mem_cons, not_or] at h
    unfold goSplit
    rw [if_neg (fun hc => h.1 hc.symm), ih h.2]

/-! ### C3: owner/repo inference from sourceLocationPrefix -/

/-- The segments the claim speaks of: clean, split on the separator, drop
empty segments; an empty input counts as having none (the source returns
unknown/unknown for it before splitting). -/
def claimSegments (slp : Str) : List Str :=
  if slp = [] then [] else (goSplit '/' (goClean slp)).filter (fun p => p ≠ [])

/-- C3: with at least two segments, owner and repo are the last two (the
rightmost is the repo); with exactly one, the repo is that segment and the
owner is "unknown"; with none, both are "unknown". -/
theorem c3_owner_repo (slp : Str) :
    (∀ o r init, claimSegments slp = init ++ [o, r] → extractOwnerRepo slp = (o, r)) ∧
    (∀ r, claimSegments slp = [r] → extractOwnerRepo slp = (unknownStr, r)) ∧
    (claimSegments slp = [] → extractOwnerRepo slp = (unknownStr, unknownStr)) := by
  by_cases h : slp = []
  · subst h
    refine ⟨?_, ?_, fun _ => rfl⟩
    · intro o r init hseg; simp [claimSegments] at hseg
    · intro r hseg; simp [claimSegments] at hseg
  · have hx : extractOwnerRepo slp =
        (match (claimSegments slp).reverse with
         | r :: o :: _ => (o, r)
         | [r] => (unknownStr, r)
         | [] => (unknownStr, unknownStr)) := by
      unfold extractOwnerRepo claimSegments
      rw [if_neg h, if_neg h]
      rfl
    refine ⟨?_, ?_, ?_⟩
    · intro o r init hseg
      rw [hx, hseg]
      simp
    · intro r hseg
      rw [hx, hseg]
      rfl
    · intro hseg
      rw [hx, hseg]
      rfl

/-- C3 witness: a concrete five-segment prefix. -/
theorem c3_witness :
    extractOwnerRepo (str "/home/x/src/acme/widgets") = (str "acme", str "widgets") :=
  (c3_owner_repo (str "/home/x/src/acme/widgets")).1 (str "acme") (str "widgets")
    [str "home", str "x", str "src"] (by decide)

/-! ### C4: buildCID length, stability, and collisions -/

/-- C4 counterexample: two tuples differing in their first two components
whose space-joined concatenations coincide get the same buildCID. -/
theorem c4_counterexample :
    generateBuildCID (str "a b") (str "c") (str "d") (str "e") =
      generateBuildCID (str "a") (str "b c") (str "d") (str "e") ∧
    (str "a b", str "c", str "d", str "e") ≠ (str "a", str "b c", str "d", str "e") :=
  ⟨congrArg cidOfInput (by decide), by decide⟩

/-- C4 (amended): the buildCID always has length 10 and is a function of the
space-joined input (so it is stable for identical inputs, and distinct
tuples with the same joined string collide). -/
theorem c4_cid_length_and_function (c t l s c2 t2 l2 s2 : Str) :
    (generateBuildCID c t l s).length = 10 ∧
    (buildCIDInput c t l s = buildCIDInput c2 t2 l2 s2 →
      generateBuildCID c t l s = generateBuildCID c2 t2 l2 s2) := by
  constructor
  · show (cidOfInput _).length = 10
    unfold cidOfInput
    rw [List.length_take, hexEncode_length, sha256_length]
    omega
  · exact fun h => congrArg cidOfInput h

/-- C4 witness: length 10 at one concrete input; a concrete collision of
distinct tuples through equal joined strings. -/
theorem c4_witness :
    (generateBuildCID (str "2.15.0") (str "2024-01-15T10:30:00Z") (str "go") (str "abc123")).length = 10 ∧
    generateBuildCID (str "a b") (str "c") (str "d") (str "e") =
      generateBuildCID (str "a") (str "b c") (str "d") (str "e") :=
  ⟨(c4_cid_length_and_function (str "2.15.0") (str "2024-01-15T10:30:00Z") (str "go") (str "abc123")
      (str "") (str "") (str "") (str "")).1,
   (c4_cid_length_and_function (str "a b") (str "c") (str "d") (str "e")
      (str "a") (str "b c") (str "d") (str "e")).2 (by decide)⟩

/-! ### C5: contentHash non-emptiness and determinism -/

/-- A concrete discovered database (unarchived: no stored content hash). -/
def sampleDb : DiscoveredDatabase :=
  { path := str "/base/db1", name := str "db1", isArchived := false,
    language := str "go", sourceLocationPrefix := str "/src/o/r",
    creationMetadata := none, fileSize := 7, contentHash := [],
    owner := str "o", repo := str "r" }

/-- C5: every catalog entry's contentHash is non-empty; for unarchived
databases (empty discovered hash) it is the SHA-256 of the location string
alone, never of the tree's payload; `hashFile` is a deterministic, non-empty
function of the archive bytes. -/
theorem c5_content_hash_invariant (b e : Str) (db : DiscoveredDatabase)
    (bytes bytes2 : List Nat) :
    (convertToMetadata b e db).contentHash ≠ [] ∧
    (db.contentHash = [] →
      (convertToMetadata b e db).contentHash = hexEncode (sha256 (utf8Encode db.path))) ∧
    (bytes = bytes2 → hashFile bytes = hashFile bytes2) ∧
    hashFile bytes ≠ [] := by
  have hch : (convertToMetadata b e db).contentHash =
      (if db.contentHash = [] then hexEncode (sha256 (utf8Encode db.path)) else db.contentHash) := rfl
  refine ⟨?_, fun h0 => by rw [hch, if_pos h0], fun h => congrArg hashFile h,
    sha256Hex_ne_nil bytes⟩
  rw [hch]
  by_cases h0 : db.contentHash = []
  · rw [if_pos h0]; exact sha256Hex_ne_nil _
  · rw [if_neg h0]; exact h0

/-- C5 witness: the sample unarchived database and concrete bytes. -/
theorem c5_witness :
    (convertToMetadata (str "/base") (str "u") sampleDb).contentHash ≠ [] ∧
    (convertToMetadata (str "/base") (str "u") sampleDb).contentHash =
      hexEncode (sha256 (utf8Encode sampleDb.path)) ∧
    hashFile [104, 105] ≠ [] :=
  ⟨(c5_content_hash_invariant (str "/base") (str "u") sampleDb [104, 105] [104, 105]).1,
   (c5_content_hash_invariant (str "/base") (str "u") sampleDb [104, 105] [104, 105]).2.1 rfl,
   (c5_content_hash_invariant (str "/base") (str "u") sampleDb [104, 105] [104, 105]).2.2.2⟩

/-! ### C7: legacy-descriptor filename fallback -/

/-- C7 counterexample: owner "opt" is a sentinel, the archive name
"database.zip" has no separator, and owner/repo keep the values inferred
from the prefix — they do not become "unknown" as the claim states. -/
theorem c7_counterexample :
    dbInfoOwnerRepo (str "/opt/src") (str "/data/database.zip") = (str "opt", str "src") ∧
    dbInfoOwnerRepo (str "/opt/src") (str "/data/database.zip") ≠ (unknownStr, unknownStr) := by
  exact ⟨by decide, by decide⟩

/-- C7 (amended): for a sentinel owner the filename derivation replaces
owner and repo per-field, each only when its token is not "unknown"; with
no separator in the trimmed base name both keep their prefix-inferred
values; a non-sentinel owner is never overridden; and the u-boot scenario
holds. -/
theorem c7_legacy_filename_fallback (slp zipPath : Str) :
    (∀ t0 t1 rest, sentinelOwner (extractOwnerRepo slp).1 →
      goSplit '_' (trimArchiveExts (goBase zipPath)) = t0 :: t1 :: rest →
      t0 ≠ unknownStr → t1 ≠ unknownStr → dbInfoOwnerRepo slp zipPath = (t0, t1)) ∧
    (sentinelOwner (extractOwnerRepo slp).1 →
      '_' ∉ trimArchiveExts (goBase zipPath) → '-' ∉ trimArchiveExts (goBase zipPath) →
      dbInfoOwnerRepo slp zipPath = extractOwnerRepo slp) ∧
    (¬ sentinelOwner (extractOwnerRepo slp).1 →
      dbInfoOwnerRepo slp zipPath = extractOwnerRepo slp) ∧
    dbInfoOwnerRepo (str "/opt/src") (str "u-boot_u-boot_cpp.zip") = (str "u-boot", str "u-boot") := by
  refine ⟨?_, ?_, ?_, by decide⟩
  · intro t0 t1 rest hsent hsplit ht0 ht1
    have hfn : extractOwnerRepoFromFilename (goBase zipPath) = (t0, t1) := by
      unfold extractOwnerRepoFromFilename
      rw [hsplit]
    unfold dbInfoOwnerRepo
    rw [if_pos hsent, hfn]
    rw [if_pos ht0, if_pos ht1]
  · intro hsent hu hd
    have hfn : extractOwnerRepoFromFilename (goBase zipPath) = (unknownStr, unknownStr) := by
      unfold extractOwnerRepoFromFilename
      rw [goSplit_of_not_mem hu, goSplit_of_not_mem hd]
    unfold dbInfoOwnerRepo
    rw [if_pos hsent, hfn]
    simp
  · intro hsent
    unfold dbInfoOwnerRepo
    rw [if_neg hsent]

/-- C7 witness: sentinel owner with a multi-token underscore filename. -/
theorem c7_witness :
    dbInfoOwnerRepo (str "/opt/src") (str "github_actions_runner_javascript.zip") =
      (str "github", str "actions") :=
  (c7_legacy_filename_fallback (str "/opt/src") (str "github_actions_runner_javascript.zip")).1
    (str "github") (str "actions") [str "runner", str "javascript"]
    (by decide) (by decide) (by decide) (by decide)

/-! ### C1: fetch path-safety (code bug) -/

/-- The filesystem of the path-safety scenario: the configured root is
"/data"; a sibling directory "/data-evil" holds a secret file. -/
def evilFs : LocalFileSystem :=
  { entry := fun p =>
      if p = str "/data-evil/secret" then .file 6 [115, 101, 99, 114, 101, 116] else .missing,
    mimeByExt := fun _ => [] }

/-- C1 (code bug): the guard is a plain string-prefix test on the cleaned
path, so the request "../data-evil/secret" under root "/data" resolves to
"/data-evil/secret" — outside the root — yet is served, because
"/data-evil/secret" textually extends "/data". The claim's own
"../../etc/passwd" shape is denied as stated. -/
theorem c1_escape_served_code_bug :
    GetFile (str "/data") evilFs (str "../data-evil/secret") =
      .ok ([115, 101, 99, 114, 101, 116], 6, str "application/octet-stream") ∧
    ¬ specWithinRoot (str "/data") (resolvedPath (str "/data") (str "../data-evil/secret")) ∧
    GetFile (str "/data") evilFs (str "../../etc/passwd") = .error .accessDenied :=
  ⟨by decide, by decide, by decide⟩

/-! ### C2: cache round-trip -/

theorem listMetadataMiss_state (b e : Str) (st : CacheState) (t1 : Nat)
    (d1 : Except Str (List DiscoveredDatabase)) (r1 : List DatabaseMetadata) (s1 : CacheState)
    (hcall : listMetadataMiss b e st t1 d1 = (.ok r1, s1)) (hne : r1 ≠ []) :
    s1.cachedMetadata = some r1 ∧ s1.cacheTime = t1 ∧ s1.cacheTTL = st.cacheTTL := by
  rcases d1 with e1 | dbs1
  · simp [listMetadataMiss] at hcall
  · simp only [listMetadataMiss, Prod.mk.injEq, Except.ok.injEq] at hcall
    obtain ⟨h1, h2⟩ := hcall
    subst h1
    rw [← h2]
    simp only []
    have hd : dbs1 ≠ [] := by simpa using hne
    simp [if_neg hne]
    exact hd

theorem listMetadata_hit (b e : Str) (s1 : CacheState) (t2 : Nat)
    (d2 : Except Str (List DiscoveredDatabase)) (r1 : List DatabaseMetadata)
    (hc : s1.cachedMetadata = some r1) (ht : t2 - s1.cacheTime < s1.cacheTTL) :
    (ListMetadata b e s1 t2 d2).1 = .ok r1 := by
  rcases s1 with ⟨cm, ct, ttl⟩
  simp only at hc ht
  subst hc
  simp [ListMetadata, ht]

/-- C2 (amended): when a listCatalog call yields a non-empty catalog, any
second call within the TTL of the stored timestamp returns that same
catalog whatever the namespace now holds; and after an invalidate the next
call always reflects the current namespace. (An empty first catalog is
stored as a nil slice and never acts as a cache hit.) -/
theorem c2_cache_round_trip (b e : Str) (st : CacheState) (t1 t2 : Nat)
    (d1 d2 : Except Str (List DiscoveredDatabase)) :
    (∀ r1 s1, ListMetadata b e st t1 d1 = (.ok r1, s1) → r1 ≠ [] →
      t2 - s1.cacheTime < s1.cacheTTL → (ListMetadata b e s1 t2 d2).1 = .ok r1) ∧
    (∀ dbs2, d2 = .ok dbs2 →
      (ListMetadata b e (invalidateCache st) t2 d2).1 =
        .ok (dbs2.map (convertToMetadata b e))) := by
  constructor
  · intro r1 s1 hcall hne httl
    rcases hcm : st.cachedMetadata with _ | cached
    · rw [ListMetadata, hcm] at hcall
      obtain ⟨h1, _, _⟩ := listMetadataMiss_state b e st t1 d1 r1 s1 hcall hne
      exact listMetadata_hit b e s1 t2 d2 r1 h1 httl
    · simp only [ListMetadata, hcm] at hcall
      by_cases hw : t1 - st.cacheTime < st.cacheTTL
      · rw [if_pos hw] at hcall
        have h1 : (Except.ok cached : Except Str (List DatabaseMetadata)) = .ok r1 :=
          congrArg Prod.fst hcall
        have h0 : st = s1 := congrArg Prod.snd hcall
        have h2 : s1.cachedMetadata = some r1 := by
          rw [← h0, hcm, Except.ok.inj h1]
        exact listMetadata_hit b e s1 t2 d2 r1 h2 httl
      · rw [if_neg hw] at hcall
        obtain ⟨h1, _, _⟩ := listMetadataMiss_state b e st t1 d1 r1 s1 hcall hne
        exact listMetadata_hit b e s1 t2 d2 r1 h1 httl
  · intro dbs2 hd2
    subst hd2
    simp [ListMetadata, invalidateCache, listMetadataMiss]

/-- C2 counterexample: from a fresh cache over an empty namespace, a second
call one instant later — well inside the TTL — already reflects a namespace
change, because the empty catalog was stored as nil and is no cache hit. -/
theorem c2_counterexample :
    (ListMetadata (str "/base") (str "u") ⟨none, 0, 300⟩ 0 (.ok [])).1 = .ok [] ∧
    (ListMetadata (str "/base") (str "u")
        ((ListMetadata (str "/base") (str "u") ⟨none, 0, 300⟩ 0 (.ok [])).2) 1
        (.ok [sampleDb])).1 ≠ .ok [] :=
  ⟨by decide, by decide⟩

/-- C2 witness: a non-empty first catalog is returned unchanged by a second
call within the TTL even though the namespace emptied in between. -/
theorem c2_witness :
    (ListMetadata (str "/base") (str "u")
        ⟨some [convertToMetadata (str "/base") (str "u") sampleDb], 0, 300⟩ 10 (.ok [])).1 =
      .ok [convertToMetadata (str "/base") (str "u") sampleDb] :=
  (c2_cache_round_trip (str "/base") (str "u") ⟨none, 0, 300⟩ 0 10 (.ok [sampleDb]) (.ok [])).1
    [convertToMetadata (str "/base") (str "u") sampleDb]
    ⟨some [convertToMetadata (str "/base") (str "u") sampleDb], 0, 300⟩
    (by decide) (by decide) (by decide)

/-! ### C9: directories are never served -/

theorem specWithinRoot_guard (b p : Str) (h : specWithinRoot b p) :
    goHasPrefix p (goClean b) = true := by
  unfold goHasPrefix
  simp only [decide_eq_true_eq]
  rcases h with h | h
  · rw [h]
  · exact List.IsPrefix.trans ⟨['/'], rfl⟩ h

/-- C9: for every request resolving inside the base root to an existing
directory, GetFile fails with the cannot-serve-directory error — never
NotFound — and FileExists answers false without error. -/
theorem c9_directory_never_served (basePath : Str) (fs : LocalFileSystem) (filename : Str) :
    specWithinRoot basePath (resolvedPath basePath filename) →
    fs.entry (resolvedPath basePath filename) = .dir →
    GetFile basePath fs filename = .error (.isDirectory (resolvedPath basePath filename)) ∧
    (∀ q, GetFile basePath fs filename ≠ .error (.notFound q)) ∧
    FileExists basePath fs filename = .ok false := by
  intro hin hdir
  have hg : goHasPrefix (resolvedPath basePath filename) (goClean basePath) = true :=
    specWithinRoot_guard _ _ hin
  refine ⟨?_, ?_, ?_⟩
  · rw [GetFile, hg, hdir]
    rfl
  · intro q
    rw [GetFile, hg, hdir]
    simp
  · rw [FileExists, hg, hdir]
    rfl

/-- The filesystem of the C9 witness: "/r/sub" is a directory. -/
def dirFs : LocalFileSystem :=
  { entry := fun p => if p = str "/r/sub" then .dir else .missing,
    mimeByExt := fun _ => [] }

/-- C9 witness: the directory "sub" under root "/r". -/
theorem c9_witness :
    GetFile (str "/r") dirFs (str "sub") = .error (.isDirectory (str "/r/sub")) ∧
    FileExists (str "/r") dirFs (str "sub") = .ok false :=
  ⟨((c9_directory_never_served (str "/r") dirFs (str "sub") (by decide) (by decide)).1).trans
      (by decide),
   (c9_directory_never_served (str "/r") dirFs (str "sub") (by decide) (by decide)).2.2⟩

/-! ### C6: partial-failure isolation in the local walk -/

theorem discoverLoop_entry_step (basePath : Str) (fs : CodeqlFs) (e : WalkEntry)
    (rest : List WalkEvent) (acc : List DiscoveredDatabase) (skips : List Str) :
    ∃ acc2 skips2, discoverLoop basePath fs (.entry e :: rest) acc skips =
      discoverLoop basePath fs rest acc2 skips2 := by
  by_cases h1 : underSkipped skips e.path = true
  · exact ⟨acc, skips, by simp only [discoverLoop]; rw [if_pos h1]⟩
  · by_cases h2 : e.path = basePath
    · exact ⟨acc, skips, by simp only [discoverLoop]; rw [if_neg h1, if_pos h2]⟩
    · by_cases h3 : (!e.isDir && goHasSuffix (goToLower e.name) (str ".zip")) = true
      · rcases harch : fs.archived e.path with msg | odb
        · exact ⟨acc, skips, by
            simp only [discoverLoop]; rw [if_neg h1, if_neg h2, if_pos h3, harch]⟩
        · rcases odb with _ | db
          · exact ⟨acc, skips, by
              simp only [discoverLoop]; rw [if_neg h1, if_neg h2, if_pos h3, harch]⟩
          · exact ⟨acc ++ [db], skips, by
              simp only [discoverLoop]; rw [if_neg h1, if_neg h2, if_pos h3, harch]⟩
      · by_cases h4 : (e.isDir && fs.hasYml e.path) = true
        · rcases hun : fs.unarchived e.path with msg | db
          · exact ⟨acc, skips, by
              simp only [discoverLoop]
              rw [if_neg h1, if_neg h2, if_neg h3, if_pos h4, hun]⟩
          · exact ⟨acc ++ [db], e.path :: skips, by
              simp only [discoverLoop]
              rw [if_neg h1, if_neg h2, if_neg h3, if_pos h4, hun]⟩
        · exact ⟨acc, skips, by
            simp only [discoverLoop]; rw [if_neg h1, if_neg h2, if_neg h3, if_neg h4]⟩

theorem discoverLoop_no_failure (basePath : Str) (fs : CodeqlFs) :
    ∀ (walk : List WalkEvent) (acc : List DiscoveredDatabase) (skips : List Str),
      (∀ s, WalkEvent.failure s ∉ walk) →
      (discoverLoop basePath fs walk acc skips).2 = none := by
  intro walk
  induction walk with
  | nil => intro acc skips _; rfl
  | cons ev rest ih =>
    intro acc skips h
    rcases ev with e | m
    · obtain ⟨acc2, skips2, hstep⟩ := discoverLoop_entry_step basePath fs e rest acc skips
      rw [hstep]
      exact ih acc2 skips2 (fun s hs => h s (List.mem_cons_of_mem _ hs))
    · exact absurd (List.mem_cons_self _ _) (h m)

theorem discoverLoop_failure_aborts (basePath : Str) (fs : CodeqlFs) (m : Str)
    (post : List WalkEvent) :
    ∀ (pre : List WalkEvent) (acc : List DiscoveredDatabase) (skips : List Str),
      (∀ s, WalkEvent.failure s ∉ pre) →
      (discoverLoop basePath fs (pre ++ WalkEvent.failure m :: post) acc skips).2 = some m := by
  intro pre
  induction pre with
  | nil => intro acc skips _; rfl
  | cons ev rest ih =>
    intro acc skips h
    rcases ev with e | s
    · rw [List.cons_append]
      obtain ⟨acc2, skips2, hstep⟩ :=
        discoverLoop_entry_step basePath fs e (rest ++ WalkEvent.failure m :: post) acc skips
      rw [hstep]
      exact ih acc2 skips2 (fun s hs => h s (List.mem_cons_of_mem _ hs))
    · exact absurd (List.mem_cons_self _ _) (h s)

theorem discoverLoop_archived_error (basePath : Str) (fs : CodeqlFs) (p msg : Str)
    (hp : fs.archived p = .error msg) :
    ∀ (walk : List WalkEvent) (acc : List DiscoveredDatabase) (skips : List Str),
      discoverLoop basePath fs walk acc skips =
        discoverLoop basePath
          { fs with archived := fun q => if q = p then .ok none else fs.archived q }
          walk acc skips := by
  intro walk
  induction walk with
  | nil => intro acc skips; rfl
  | cons ev rest ih =>
    intro acc skips
    rcases ev with e | m
    · simp only [discoverLoop]
      by_cases h1 : underSkipped skips e.path = true
      · simp only [h1, if_true]
        exact ih acc skips
      · simp only [h1, if_false]
        by_cases h2 : e.path = basePath
        · simp only [h2, if_true, eq_self_iff_true]
          exact ih acc skips
        · simp only [h2, if_false]
          by_cases h3 : (!e.isDir && goHasSuffix (goToLower e.name) (str ".zip")) = true
          · simp only [h3, if_true]
            by_cases hq : e.path = p
            · simp only [hq, hp, eq_self_iff_true, if_true]
              exact ih acc skips
            · simp only [hq, if_false]
              rcases harch : fs.archived e.path with m2 | odb
              · simp only [harch]
                exact ih acc skips
              · rcases odb with _ | db
                · simp only [harch]
                  exact ih acc skips
                · simp only [harch]
                  exact ih (acc ++ [db]) skips
          · simp only [h3, if_false]
            by_cases h4 : (e.isDir && fs.hasYml e.path) = true
            · simp only [h4, if_true]
              rcases hun : fs.unarchived e.path with m2 | db
              · simp only [hun]
                exact ih acc skips
              · simp only [hun]
                exact ih (acc ++ [db]) (e.path :: skips)
            · simp only [h4, if_false]
              exact ih acc skips
    · rfl

theorem discoverLoop_unarchived_error (basePath : Str) (fs : CodeqlFs) (p msg : Str)
    (hp : fs.unarchived p = .error msg) :
    ∀ (walk : List WalkEvent) (acc : List DiscoveredDatabase) (skips : List Str),
      discoverLoop basePath fs walk acc skips =
        discoverLoop basePath
          { fs with hasYml := fun q => if q = p then false else fs.hasYml q }
          walk acc skips := by
  intro walk
  induction walk with
  | nil => intro acc skips; rfl
  | cons ev rest ih =>
    intro acc skips
    rcases ev with e | m
    · simp only [discoverLoop]
      by_cases h1 : underSkipped skips e.path = true
      · simp only [h1, if_true]
        exact ih acc skips
      · simp only [h1, if_false]
        by_cases h2 : e.path = basePath
        · simp only [h2, if_true, eq_self_iff_true]
          exact ih acc skips
        · simp only [h2, if_false]
          by_cases h3 : (!e.isDir && goHasSuffix (goToLower e.name) (str ".zip")) = true
          · simp only [h3, if_true]
            rcases harch : fs.archived e.path with m2 | odb
            · simp only [harch]
              exact ih acc skips
            · rcases odb with _ | db
              · simp only [harch]
                exact ih acc skips
              · simp only [harch]
                exact ih (acc ++ [db]) skips
          · simp only [h3, if_false]
            by_cases hq : e.path = p
            · simp only [hq, hp, eq_self_iff_true, if_true, Bool.and_false, if_false]
              by_cases h4 : (e.isDir && fs.hasYml p) = true
              · simp only [h4, if_true, hp]
                exact ih acc skips
              · simp only [h4, if_false]
                exact ih acc skips
            · simp only [hq, if_false]
              by_cases h4 : (e.isDir && fs.hasYml e.path) = true
              · simp only [h4, if_true]
                rcases hun : fs.unarchived e.path with m2 | db
                · simp only [hun]
                  exact ih acc skips
                · simp only [hun]
                  exact ih (acc ++ [db]) (e.path :: skips)
              · simp only [h4, if_false]
                exact ih acc skips
    · rfl

theorem goHasSuffix_append (a b : Str) : goHasSuffix (a ++ b) b = true := by
  unfold goHasSuffix
  simp only [decide_eq_true_eq]
  exact List.suffix_append a b

theorem goTrimSuffix_append (a b : Str) : goTrimSuffix (a ++ b) b = a := by
  unfold goTrimSuffix
  rw [if_pos (goHasSuffix_append a b), List.length_append, Nat.add_sub_cancel, List.take_left]

theorem goTrimSuffix_restore {s suf : Str} (h : goHasSuffix s suf = true) :
    goTrimSuffix s suf ++ suf = s := by
  unfold goHasSuffix at h
  rw [decide_eq_true_eq] at h
  obtain ⟨t, ht⟩ := h
  subst ht
  rw [goTrimSuffix_append]

theorem gcsDiscoverUnarchived_fetch_error (pfx e : Str) (ns : GcsNamespace) (p msg : Str)
    (hp : ns.fetchYaml p = .error msg) :
    gcsDiscoverUnarchived pfx e ns p = .error msg := by
  rw [gcsDiscoverUnarchived, hp]

theorem gcsDiscoverLoop_iterator_error (pfx e : Str) (ns : GcsNamespace) (m : Str)
    (post : List (Except Str Str)) :
    ∀ (pre : List (Except Str Str)) (acc : List DatabaseMetadata) (disc : List Str),
      (∀ s, Except.error s ∉ pre) →
      gcsDiscoverLoop pfx e ns (pre ++ Except.error m :: post) acc disc = .error m := by
  intro pre
  induction pre with
  | nil => intro acc disc _; rfl
  | cons o rest ih =>
    intro acc disc h
    have hrest : ∀ s, Except.error s ∉ rest := fun s hs => h s (List.mem_cons_of_mem _ hs)
    rcases o with e1 | name
    · exact absurd (List.mem_cons_self _ _) (h e1)
    · rw [List.cons_append, gcsDiscoverLoop]
      by_cases h1 : goHasSuffix name (str "/codeql-database.yml") = true
      · rw [if_pos h1]
        by_cases h2 : goTrimSuffix name (str "/codeql-database.yml") ∈ disc
        · rw [if_pos h2]
          exact ih acc disc hrest
        · rw [if_neg h2]
          rcases hu : gcsDiscoverUnarchived pfx e ns
              (goTrimSuffix name (str "/codeql-database.yml")) with e2 | mm
          · exact ih _ _ hrest
          · exact ih _ _ hrest
      · rw [if_neg h1]
        exact ih acc disc hrest

theorem gcsDiscoverLoop_no_error (pfx e : Str) (ns : GcsNamespace) :
    ∀ (objs : List (Except Str Str)) (acc : List DatabaseMetadata) (disc : List Str),
      (∀ s, Except.error s ∉ objs) →
      ∃ l, gcsDiscoverLoop pfx e ns objs acc disc = .ok l := by
  intro objs
  induction objs with
  | nil => intro acc disc _; exact ⟨acc, rfl⟩
  | cons o rest ih =>
    intro acc disc h
    have hrest : ∀ s, Except.error s ∉ rest := fun s hs => h s (List.mem_cons_of_mem _ hs)
    rcases o with e1 | name
    · exact absurd (List.mem_cons_self _ _) (h e1)
    · rw [gcsDiscoverLoop]
      by_cases h1 : goHasSuffix name (str "/codeql-database.yml") = true
      · rw [if_pos h1]
        by_cases h2 : goTrimSuffix name (str "/codeql-database.yml") ∈ disc
        · rw [if_pos h2]
          exact ih acc disc hrest
        · rw [if_neg h2]
          rcases hu : gcsDiscoverUnarchived pfx e ns
              (goTrimSuffix name (str "/codeql-database.yml")) with e2 | mm
          · exact ih _ _ hrest
          · exact ih _ _ hrest
      · rw [if_neg h1]
        exact ih acc disc hrest

theorem gcsDiscoverLoop_candidate_error (pfx e : Str) (ns : GcsNamespace) (p msg : Str)
    (hp : ns.fetchYaml p = .error msg) :
    ∀ (objs : List (Except Str Str)) (acc : List DatabaseMetadata) (disc1 disc2 : List Str),
      (∀ q, q ≠ p → (q ∈ disc1 ↔ q ∈ disc2)) →
      gcsDiscoverLoop pfx e ns objs acc disc1 =
        gcsDiscoverLoop pfx e ns
          (objs.filter (fun o => o ≠ .ok (p ++ str "/codeql-database.yml"))) acc disc2 := by
  intro objs
  induction objs with
  | nil => intro acc disc1 disc2 _; rfl
  | cons o rest ih =>
    intro acc disc1 disc2 hdisc
    rcases o with e1 | name
    · rw [List.filter_cons_of_pos (by simp)]
      rfl
    · by_cases hname : name = p ++ str "/codeql-database.yml"
      · subst hname
        rw [List.filter_cons_of_neg (by simp)]
        rw [gcsDiscoverLoop, if_pos (goHasSuffix_append _ _), goTrimSuffix_append]
        by_cases h2 : p ∈ disc1
        · rw [if_pos h2]
          exact ih acc disc1 disc2 hdisc
        · rw [if_neg h2]
          rw [gcsDiscoverUnarchived_fetch_error pfx e ns p msg hp]
          refine ih acc (p :: disc1) disc2 (fun q hq => ?_)
          simp [List.mem_cons, hq, hdisc q hq]
      · rw [List.filter_cons_of_pos (by simp [hname])]
        rw [gcsDiscoverLoop]
        rw [gcsDiscoverLoop]
        by_cases h1 : goHasSuffix name (str "/codeql-database.yml") = true
        · rw [if_pos h1, if_pos h1]
          have hne : goTrimSuffix name (str "/codeql-database.yml") ≠ p := by
            intro hqe
            apply hname
            have hres := goTrimSuffix_restore h1
            rw [hqe] at hres
            exact hres.symm
          by_cases h2 : goTrimSuffix name (str "/codeql-database.yml") ∈ disc1
          · have h2b : goTrimSuffix name (str "/codeql-database.yml") ∈ disc2 :=
              (hdisc _ hne).mp h2
            rw [if_pos h2, if_pos h2b]
            exact ih acc disc1 disc2 hdisc
          · have h2b : goTrimSuffix name (str "/codeql-database.yml") ∉ disc2 :=
              fun hh => h2 ((hdisc _ hne).mpr hh)
            rw [if_neg h2, if_neg h2b]
            rcases hu : gcsDiscoverUnarchived pfx e ns
                (goTrimSuffix name (str "/codeql-database.yml")) with e2 | mm
            · refine ih acc _ _ (fun q hq => ?_)
              simp [List.mem_cons, hdisc q hq]
            · refine ih (acc ++ [mm]) _ _ (fun q hq => ?_)
              simp [List.mem_cons, hdisc q hq]
        · rw [if_neg h1, if_neg h1]
          exact ih acc disc1 disc2 hdisc

/-- C6: in both catalog scans, an enumeration failure is fatal to that
call and a failure-free enumeration always succeeds, while an extraction
failure on one candidate only skips that candidate. Local walk: a failing
extraction is indistinguishable from the candidate not being a database.
Remote (gcs) scan: an iterator error anywhere aborts with that error; with
no iterator errors the call returns a catalog whatever the per-candidate
fetch results; and a candidate whose descriptor read/parse fails
contributes nothing — the scan result is that of the same namespace with
that candidate's descriptor key absent from the listing. -/
theorem c6_failure_isolation (basePath : Str) (fs : CodeqlFs)
    (walk pre post : List WalkEvent) (m p msg : Str)
    (pfx ep : Str) (ns : GcsNamespace) (gpre gpost : List (Except Str Str))
    (gm gp gmsg : Str) :
    ((∀ s, WalkEvent.failure s ∉ pre) →
      (DiscoverDatabases basePath fs (pre ++ WalkEvent.failure m :: post)).2 = some m) ∧
    ((∀ s, WalkEvent.failure s ∉ walk) → (DiscoverDatabases basePath fs walk).2 = none) ∧
    (fs.archived p = .error msg →
      DiscoverDatabases basePath fs walk =
        DiscoverDatabases basePath
          { fs with archived := fun q => if q = p then .ok none else fs.archived q } walk) ∧
    (fs.unarchived p = .error msg →
      DiscoverDatabases basePath fs walk =
        DiscoverDatabases basePath
          { fs with hasYml := fun q => if q = p then false else fs.hasYml q } walk) ∧
    (ns.objects = gpre ++ Except.error gm :: gpost → (∀ s, Except.error s ∉ gpre) →
      gcsDiscoverDatabases pfx ep ns = .error gm) ∧
    ((∀ s, Except.error s ∉ ns.objects) → ∃ l, gcsDiscoverDatabases pfx ep ns = .ok l) ∧
    (ns.fetchYaml gp = .error gmsg →
      gcsDiscoverDatabases pfx ep ns =
        gcsDiscoverLoop pfx ep ns
          (ns.objects.filter (fun o => o ≠ .ok (gp ++ str "/codeql-database.yml"))) [] []) :=
  ⟨fun h => discoverLoop_failure_aborts basePath fs m post pre [] [] h,
   fun h => discoverLoop_no_failure basePath fs walk [] [] h,
   fun h => discoverLoop_archived_error basePath fs p msg h walk [] [],
   fun h => discoverLoop_unarchived_error basePath fs p msg h walk [] [],
   fun hobj h => by
     rw [gcsDiscoverDatabases, hobj]
     exact gcsDiscoverLoop_iterator_error pfx ep ns gm gpost gpre [] [] h,
   fun h => gcsDiscoverLoop_no_error pfx ep ns ns.objects [] [] h,
   fun h => gcsDiscoverLoop_candidate_error pfx ep ns gp gmsg h ns.objects [] [] []
     (fun _ _ => Iff.rfl)⟩

/-- The oracle of the C6 witness: "/r/bad.zip" fails extraction,
"/r/good.zip" is a database. -/
def c6fs : CodeqlFs :=
  { archived := fun q =>
      if q = str "/r/bad.zip" then .error (str "boom")
      else if q = str "/r/good.zip" then .ok (some sampleDb) else .ok none,
    hasYml := fun _ => false,
    unarchived := fun _ => .error (str "unused") }

/-- The walk of the C6 witness. -/
def c6walk : List WalkEvent :=
  [.entry ⟨str "/r/bad.zip", str "bad.zip", false⟩,
   .entry ⟨str "/r/good.zip", str "good.zip", false⟩]

/-- The object store of the C6 witness: candidate "bad" fails its
descriptor fetch, candidate "good" parses. -/
def c6gcsNs : GcsNamespace :=
  { objects := [.ok (str "bad/codeql-database.yml"), .ok (str "good/codeql-database.yml")],
    fetchYaml := fun q =>
      if q = str "bad" then .error (str "boom") else .ok ⟨str "/s/o/r", str "go", none⟩,
    detectLang := fun _ => unknownStr }

/-- C6 witness: locally, with one failing and one good archive the scan
behaves as if the failing archive were merely not a database; remotely,
with one failing and one good candidate the scan behaves as if the failing
candidate's descriptor key were not listed. -/
theorem c6_witness :
    (DiscoverDatabases (str "/r") c6fs c6walk =
      DiscoverDatabases (str "/r")
        { c6fs with archived := fun q =>
            if q = str "/r/bad.zip" then .ok none else c6fs.archived q } c6walk) ∧
    gcsDiscoverDatabases (str "") (str "u") c6gcsNs =
      gcsDiscoverLoop (str "") (str "u") c6gcsNs
        (c6gcsNs.objects.filter
          (fun o => o ≠ .ok (str "bad" ++ str "/codeql-database.yml"))) [] [] :=
  ⟨(c6_failure_isolation (str "/r") c6fs c6walk [] [] (str "")
      (str "/r/bad.zip") (str "boom") (str "") (str "u") c6gcsNs [] []
      (str "") (str "bad") (str "boom")).2.2.1 (by decide),
   (c6_failure_isolation (str "/r") c6fs c6walk [] [] (str "")
      (str "/r/bad.zip") (str "boom") (str "") (str "u") c6gcsNs [] []
      (str "") (str "bad") (str "boom")).2.2.2.2.2.2 (by decide)⟩

/-! ### C8: the remote backend reports size 0 -/

theorem gcsDiscoverUnarchived_size (pfx e : Str) (ns : GcsNamespace) (d : Str)
    (m : DatabaseMetadata) (h : gcsDiscoverUnarchived pfx e ns d = .ok m) :
    m.dbFileSize = 0 := by
  rcases hy : ns.fetchYaml d with e1 | y
  · rw [gcsDiscoverUnarchived, hy] at h
    exact absurd h (by simp)
  · rw [gcsDiscoverUnarchived, hy] at h
    have hm := Except.ok.inj h
    rw [← hm]

theorem gcsDiscoverLoop_size (pfx e : Str) (ns : GcsNamespace) :
    ∀ (objs : List (Except Str Str)) (acc : List DatabaseMetadata) (disc : List Str)
      (result : List DatabaseMetadata),
      (∀ x ∈ acc, x.dbFileSize = 0) →
      gcsDiscoverLoop pfx e ns objs acc disc = .ok result →
      ∀ x ∈ result, x.dbFileSize = 0 := by
  intro objs
  induction objs with
  | nil =>
    intro acc disc result hacc h
    rw [gcsDiscoverLoop] at h
    rw [← Except.ok.inj h]
    exact hacc
  | cons o rest ih =>
    intro acc disc result hacc h
    rcases o with e1 | name
    · rw [gcsDiscoverLoop] at h
      exact absurd h (by simp)
    · rw [gcsDiscoverLoop] at h
      by_cases h1 : goHasSuffix name (str "/codeql-database.yml") = true
      · rw [if_pos h1] at h
        by_cases h2 : goTrimSuffix name (str "/codeql-database.yml") ∈ disc
        · rw [if_pos h2] at h
          exact ih acc disc result hacc h
        · rw [if_neg h2] at h
          rcases hu : gcsDiscoverUnarchived pfx e ns
              (goTrimSuffix name (str "/codeql-database.yml")) with e2 | mm
          · rw [hu] at h
            exact ih acc _ result hacc h
          · rw [hu] at h
            refine ih (acc ++ [mm]) _ result ?_ h
            intro x hx
            rcases List.mem_append.mp hx with hx | hx
            · exact hacc x hx
            · rw [List.mem_singleton.mp hx]
              exact gcsDiscoverUnarchived_size pfx e ns _ mm hu
      · rw [if_neg h1] at h
        exact ih acc disc result hacc h

/-- C8: every catalog entry the remote-namespace discovery produces reports
a db_file_size of 0. -/
theorem c8_gcs_size_zero (pfx e : Str) (ns : GcsNamespace)
    (result : List DatabaseMetadata) (m : DatabaseMetadata) :
    gcsDiscoverDatabases pfx e ns = .ok result → m ∈ result → m.dbFileSize = 0 :=
  fun h hm => gcsDiscoverLoop_size pfx e ns ns.objects [] [] result (by simp) h m hm

/-- A one-candidate object store for the C8 witness. -/
def gcsSampleNs : GcsNamespace :=
  { objects := [.ok (str "d1/codeql-database.yml")],
    fetchYaml := fun _ => .ok ⟨str "/s/o/r", str "go", none⟩,
    detectLang := fun _ => unknownStr }

/-- The catalog the C8 witness namespace produces. -/
def gcsSampleList : List DatabaseMetadata :=
  match gcsDiscoverDatabases (str "") (str "u") gcsSampleNs with
  | .ok l => l
  | .error _ => []

/-- Its first (only) entry. -/
def gcsSampleHead : DatabaseMetadata :=
  gcsSampleList.headD ⟨[], [], [], [], [], [], [], [], [], [], [], [], 1⟩

/-- C8 witness: the entry discovered from the sample namespace has size 0. -/
theorem c8_witness : gcsSampleHead.dbFileSize = 0 :=
  c8_gcs_size_zero (str "") (str "u") gcsSampleNs gcsSampleList gcsSampleHead
    (by decide) (by decide)

/-! ### C10: case-insensitive archive recognition -/

/-- The claim's casing condition: the name ends in ".zip" written in any
letter casing. -/
def zipAnyCase (name : Str) : Prop :=
  ∃ c1 c2 c3, ['.', c1, c2, c3] <:+ name ∧
    (c1 = 'z' ∨ c1 = 'Z') ∧ (c2 = 'i' ∨ c2 = 'I') ∧ (c3 = 'p' ∨ c3 = 'P')

theorem zipAnyCase_lower_suffix {name : Str} (h : zipAnyCase name) :
    goHasSuffix (goToLower name) (str ".zip") = true := by
  obtain ⟨c1, c2, c3, ⟨t, ht⟩, h1, h2, h3⟩ := h
  unfold goHasSuffix
  simp only [decide_eq_true_eq]
  refine ⟨goToLower t, ?_⟩
  rw [← ht]
  unfold goToLower
  rw [List.map_append]
  congr 1
  rcases h1 with rfl | rfl <;> rcases h2 with rfl | rfl <;> rcases h3 with rfl | rfl <;> decide

/-- C10: a non-directory walk entry whose name ends in ".zip" in any letter
casing is processed by the archived-extraction branch. -/
theorem c10_zip_case_insensitive (basePath : Str) (fs : CodeqlFs) (e : WalkEntry)
    (rest : List WalkEvent) (acc : List DiscoveredDatabase) (skips : List Str) :
    zipAnyCase e.name → e.isDir = false → underSkipped skips e.path = false →
    e.path ≠ basePath →
    discoverLoop basePath fs (.entry e :: rest) acc skips =
      (match fs.archived e.path with
       | .error _ => discoverLoop basePath fs rest acc skips
       | .ok none => discoverLoop basePath fs rest acc skips
       | .ok (some db) => discoverLoop basePath fs rest (acc ++ [db]) skips) := by
  intro hz hdir hskip hbase
  have hsuf := zipAnyCase_lower_suffix hz
  simp only [discoverLoop]
  rw [hskip, if_neg (by simp), if_neg hbase, hdir, hsuf]
  exact if_pos rfl

/-- The oracle of the C10 witness. -/
def c10fs : CodeqlFs :=
  { archived := fun q => if q = str "/r/A.ZIP" then .ok (some sampleDb) else .ok none,
    hasYml := fun _ => false,
    unarchived := fun _ => .error (str "unused") }

/-- The entry of the C10 witness: an upper-cased ".ZIP" file. -/
def c10entry : WalkEntry := ⟨str "/r/A.ZIP", str "A.ZIP", false⟩

/-- C10 witness: the upper-cased archive is discovered. -/
theorem c10_witness :
    DiscoverDatabases (str "/r") c10fs [WalkEvent.entry c10entry] = ([sampleDb], none) :=
  (c10_zip_case_insensitive (str "/r") c10fs c10entry [] [] []
      ⟨'Z', 'I', 'P', by decide, Or.inr rfl, Or.inr rfl, Or.inr rfl⟩
      rfl rfl (by decide)).trans (by decide)
